import Mathlib

/-!
Verification of `src/name_processor.c` (repository 0xchamin/CPU2Music).

The program's only algorithmic unit is `process_name`, which computes a
32-bit fingerprint of a NUL-terminated byte string:
  1. a DJB2-style rolling hash (`hash = ((hash << 5) + hash) + c`, unsigned
     32-bit wraparound), reading each input byte through the C `char` type
     whose signedness is implementation-defined;
  2. `strlen` of the input;
  3. a frequency table `char_counts[256]` indexed by `(unsigned char)` casts;
  4. an XOR fold of `char_counts[i] * i` over `i = 0..255` for positive counts.
`main` checks `argc != 2`, prints a usage message and returns 1 on mismatch,
otherwise runs `process_name` on `argv[1]` and returns 0.

We embed the input as a `List Nat` of byte values (the NUL-free content of
the C string, each element intended `< 256`), 32-bit unsigned arithmetic as
`Nat` with explicit `% 2 ^ 32`, and the `char` signedness choice as a
`Bool` parameter (`true` = `char` is signed, as with gcc on x86-64;
`false` = `char` is unsigned).
-/

set_option maxRecDepth 100000

/-- The modulus 2^32 of C `unsigned int` arithmetic on the target. -/
def U32 : Nat := 2 ^ 32

/-- The value of a byte `b` (0..255) when read through the C `char` type and
stored into the `int c` of the hash loop: the byte itself if `char` is
unsigned or the byte is below 128, and `b - 256` if `char` is signed and
`b ≥ 128`. -/
def charVal (charSigned : Bool) (b : Nat) : Int :=
  if charSigned ∧ 128 ≤ b then (b : Int) - 256 else (b : Int)

/-- One iteration of the hash loop of `process_name`
(`hash = ((hash << 5) + hash) + c;`): shift, add, add the char value, with
the result reduced modulo 2^32 as C unsigned arithmetic does (a possibly
negative `c` is absorbed by the conversion to `unsigned int`, which is
exactly `Int.emod` by a positive modulus). -/
def hashStep (charSigned : Bool) (h : Nat) (b : Nat) : Nat :=
  (((((h <<< 5) + h : Nat) : Int) + charVal charSigned b) % (U32 : Int)).toNat

/-- The hash loop `while ((c = *str++)) hash = ((hash << 5) + hash) + c;`
run from accumulator `h` over the remaining bytes. -/
def hashLoop (charSigned : Bool) (h : Nat) : List Nat → Nat
  | [] => h
  | b :: bs => hashLoop charSigned (hashStep charSigned h b) bs

/-- The hash computed by `process_name`: the loop started at 5381. -/
def hashOf (charSigned : Bool) (s : List Nat) : Nat :=
  hashLoop charSigned 5381 s

/-- Embedding of `int length = strlen(name);` — on the NUL-free content list
this is the number of bytes. -/
def nameLength (s : List Nat) : Nat := s.length

/-- The frequency table: `char_counts[(unsigned char)name[i]]++` over the
input, read off at index `i`. The `(unsigned char)` cast reduces the byte
modulo 256. -/
def charCount (s : List Nat) (i : Nat) : Nat :=
  (s.map (fun b => b % 256)).count i

/-- The XOR-fold loop of `process_name`
(`for i in 0..255: if (char_counts[i] > 0) result ^= char_counts[i] * i;`)
run from accumulator `r` over a list of indices. The product is reduced
modulo 2^32 as its conversion to `unsigned int` does. -/
def xorFold (s : List Nat) (r : Nat) : List Nat → Nat
  | [] => r
  | i :: is =>
      xorFold s
        (if 0 < charCount s i then r ^^^ ((charCount s i * i) % U32) else r) is

/-- The function `process_name`: the returned `result`, i.e. the hash
XOR-folded with the frequency terms over `i = 0, 1, ..., 255` in ascending
order. -/
def process_name (charSigned : Bool) (s : List Nat) : Nat :=
  xorFold s (hashOf charSigned s) (List.range 256)

/-- The `main` of `name_processor.c`, as the triple
(exit code, whether the usage message was printed, the fingerprint printed
if any), as a function of `argv` (program name included, so `argc` is
`argv.length`). -/
def cMain (charSigned : Bool) (argv : List (List Nat)) :
    Nat × Bool × Option Nat :=
  match argv with
  | [_, name] => (0, false, some (process_name charSigned name))
  | _ => (1, true, none)

/-- Modelled from the spec's wording of step 5 of the algorithm (the XOR
fold): starting from the hash, fold `count[i] * i` over exactly those byte
values whose count is positive, in ascending order. Stated separately so it
can be compared with the source-derived `process_name`. -/
def fingerprintSpec (charSigned : Bool) (s : List Nat) : Nat :=
  ((List.range 256).filter (fun i => 0 < charCount s i)).foldl
    (fun r i => r ^^^ ((charCount s i * i) % U32)) (hashOf charSigned s)

/-- The hash recurrence as the spec words it, with the addend being the byte
value itself: `hash = ((hash << 5) + hash) + c` truncated to 32 bits, `c`
the byte value 0..255. -/
def djb2Claim (s : List Nat) : Nat :=
  s.foldl (fun h c => ((h <<< 5) + h + c) % U32) 5381

/-- The hash recurrence written with multiplication by 33 and the value read
through `char` as addend (reduced modulo 2^32). -/
def djb2CharVal (charSigned : Bool) (s : List Nat) : Nat :=
  s.foldl
    (fun h b => (((h * 33 : Int) + charVal charSigned b) % (U32 : Int)).toNat)
    5381

/-- The XOR-fold loop with the `count[i] > 0` guard removed: every term is
folded in unconditionally. -/
def xorFoldAll (s : List Nat) (r : Nat) : List Nat → Nat
  | [] => r
  | i :: is => xorFoldAll s (r ^^^ ((charCount s i * i) % U32)) is

lemma xorFold_eq_foldl (s l : List Nat) (r : Nat) :
    xorFold s r l =
      l.foldl
        (fun r i =>
          if 0 < charCount s i then r ^^^ ((charCount s i * i) % U32) else r)
        r := by
  induction l generalizing r with
  | nil => rfl
  | cons i is ih => simp [xorFold, ih]

lemma xorFold_filter (s l : List Nat) (r : Nat) :
    xorFold s r l =
      (l.filter (fun i => 0 < charCount s i)).foldl
        (fun r i => r ^^^ ((charCount s i * i) % U32)) r := by
  induction l generalizing r with
  | nil => rfl
  | cons i is ih =>
      by_cases hp : 0 < charCount s i <;>
        simp [xorFold, List.filter_cons, hp, ih]

lemma xorFoldAll_eq_xorFold (s l : List Nat) (r : Nat) :
    xorFoldAll s r l = xorFold s r l := by
  induction l generalizing r with
  | nil => rfl
  | cons i is ih =>
      by_cases hp : 0 < charCount s i
      · simp [xorFoldAll, xorFold, hp, ih]
      · have h0 : charCount s i = 0 := Nat.eq_zero_of_not_pos hp
        simp [xorFoldAll, xorFold, hp, h0, ih]

/-- C1: the value returned by `process_name` is the hash XOR-folded with the
terms `count[i] * i` (32-bit wraparound) over exactly those byte values in
0..255 whose count is positive, taken in ascending order, starting from
`result = hash`. -/
theorem C1_result_is_xor_fold_of_positive_counts
    (charSigned : Bool) (s : List Nat) :
    process_name charSigned s = fingerprintSpec charSigned s :=
  xorFold_filter s (List.range 256) _

/-- C3: on the empty input the hash accumulator stays at 5381, every
frequency count is 0, and `process_name` returns exactly 5381. -/
theorem C3_empty_input_returns_5381 (charSigned : Bool) :
    process_name charSigned [] = 5381 ∧ hashOf charSigned [] = 5381 ∧
      ∀ i, charCount [] i = 0 := by
  refine ⟨?_, rfl, fun i => rfl⟩
  cases charSigned <;> decide

/-- C4: `process_name` is a pure function of the input bytes: any two
invocations on identical byte sequences produce identical hash, length and
result values. -/
theorem C4_deterministic (charSigned : Bool) (s t : List Nat) (h : s = t) :
    hashOf charSigned s = hashOf charSigned t ∧
      nameLength s = nameLength t ∧
      process_name charSigned s = process_name charSigned t := by
  subst h; exact ⟨rfl, rfl, rfl⟩

/-- Witness for C4 at the bytes of "John". -/
theorem C4_deterministic_witness :
    ([74, 111, 104, 110] : List Nat) = [74, 111, 104, 110] ∧
      (hashOf true [74, 111, 104, 110] = hashOf true [74, 111, 104, 110] ∧
        nameLength [74, 111, 104, 110] = nameLength [74, 111, 104, 110] ∧
        process_name true [74, 111, 104, 110] =
          process_name true [74, 111, 104, 110]) :=
  ⟨rfl, C4_deterministic true [74, 111, 104, 110] [74, 111, 104, 110] rfl⟩

/-- C5: the golden regression value for "John" (bytes 74, 111, 104, 110):
the hash is 2089257364 and the returned result is 2089257399, for either
choice of `char` signedness (all bytes are ASCII). -/
theorem C5_golden_value_john :
    (∀ charSigned, hashOf charSigned [74, 111, 104, 110] = 2089257364) ∧
      ∀ charSigned,
        process_name charSigned [74, 111, 104, 110] = 2089257399 := by
  constructor <;> (intro c; cases c) <;> decide

/-- C9: the `count[i] > 0` guard in the XOR fold is redundant: folding the
term `count[i] * i` unconditionally over all byte values 0..255 yields the
same result, since a zero count contributes a zero term and XOR with 0 is
the identity. -/
theorem C9_guard_redundant (charSigned : Bool) (s : List Nat) :
    xorFoldAll s (hashOf charSigned s) (List.range 256) =
      process_name charSigned s :=
  xorFoldAll_eq_xorFold s (List.range 256) _

lemma shift_add_eq_mul33 (h : Nat) : (h <<< 5) + h = h * 33 := by
  rw [Nat.shiftLeft_eq]; ring

lemma hashStep_eq_mul33 (charSigned : Bool) (h b : Nat) :
    hashStep charSigned h b =
      (((h * 33 : Int) + charVal charSigned b) % (U32 : Int)).toNat := by
  unfold hashStep
  rw [shift_add_eq_mul33]
  push_cast
  rfl

lemma hashLoop_eq_foldl (charSigned : Bool) (h : Nat) (s : List Nat) :
    hashLoop charSigned h s = s.foldl (hashStep charSigned) h := by
  induction s generalizing h with
  | nil => rfl
  | cons b bs ih => simp [hashLoop, ih]

lemma hashStep_lt (charSigned : Bool) (h b : Nat) :
    hashStep charSigned h b < U32 := by
  unfold hashStep
  have hpos : (0 : Int) < (U32 : Int) := by norm_num [U32]
  have h1 :=
    Int.emod_lt_of_pos
      ((((h <<< 5) + h : Nat) : Int) + charVal charSigned b) hpos
  have h2 :=
    Int.emod_nonneg ((((h <<< 5) + h : Nat) : Int) + charVal charSigned b)
      (by norm_num [U32] : ((U32 : Nat) : Int) ≠ 0)
  omega

lemma hashLoop_lt (charSigned : Bool) (s : List Nat) (h : Nat)
    (hh : h < U32) : hashLoop charSigned h s < U32 := by
  induction s generalizing h with
  | nil => exact hh
  | cons b bs ih =>
      rw [hashLoop]
      exact ih _ (hashStep_lt charSigned h b)

/-- Counterexample to C2 as stated: with a signed `char` (the gcc/x86-64
default targeted by the repository's build command), the byte 255 is read
into the loop variable `c` as -1, so the hash of the one-byte input [255]
is (5381 * 33 - 1) mod 2^32 = 177572, not the 177828 that the recurrence
with the byte value 255 as addend would give. -/
theorem C2_counterexample_byte_255 :
    hashOf true [255] ≠ djb2Claim [255] := by decide

/-- C2 (amended): the hash accumulator starts at 5381 and, for each input
byte, is updated by `hash = hash * 33 + c` with unsigned modulo-2^32
wraparound, where `c` is the value of the byte read through the C `char`
type (the byte itself when `char` is unsigned or the byte is below 128;
byte - 256 when `char` is signed and the byte is at least 128); on every
input the result stays below 2^32, so overflow wraps silently and never
faults. -/
theorem C2_hash_recurrence (charSigned : Bool) (s : List Nat) :
    hashOf charSigned s = djb2CharVal charSigned s ∧
      hashOf charSigned s < U32 := by
  constructor
  · unfold hashOf djb2CharVal
    rw [hashLoop_eq_foldl]
    congr 1
    funext h b
    exact hashStep_eq_mul33 charSigned h b
  · exact hashLoop_lt charSigned s 5381 (by norm_num [U32])

lemma charVal_of_lt_128 (charSigned : Bool) (b : Nat) (hb : b < 128) :
    charVal charSigned b = (b : Int) := by
  unfold charVal
  rw [if_neg]
  rintro ⟨-, h⟩
  omega

lemma hashStep_ascii (charSigned : Bool) (h b : Nat) (hb : b < 128) :
    hashStep charSigned h b = ((h <<< 5) + h + b) % U32 := by
  unfold hashStep
  rw [charVal_of_lt_128 charSigned b hb]
  norm_cast

lemma hashLoop_ascii (charSigned : Bool) (s : List Nat) (a : Nat)
    (h : ∀ b ∈ s, b < 128) :
    hashLoop charSigned a s =
      s.foldl (fun h c => ((h <<< 5) + h + c) % U32) a := by
  induction s generalizing a with
  | nil => rfl
  | cons b bs ih =>
      rw [hashLoop, List.foldl_cons,
        hashStep_ascii charSigned a b (h b (by simp))]
      exact ih _ fun x hx => h x (by simp [hx])

/-- C10: for inputs whose bytes are all ASCII (below 128), the value added
in each hash step is the byte value itself regardless of the signedness of
the C `char` type, and the computed hash equals the standard DJB2 hash of
the byte sequence. -/
theorem C10_ascii_standard_djb2 (charSigned : Bool) (s : List Nat)
    (h : ∀ b ∈ s, b < 128) :
    (∀ b ∈ s, charVal charSigned b = (b : Int)) ∧
      hashOf charSigned s = djb2Claim s :=
  ⟨fun b hb => charVal_of_lt_128 charSigned b (h b hb),
    hashLoop_ascii charSigned s 5381 h⟩

/-- Witness for C10 at the bytes of "John" (all ASCII). -/
theorem C10_ascii_standard_djb2_witness :
    (∀ b ∈ ([74, 111, 104, 110] : List Nat), b < 128) ∧
      hashOf true [74, 111, 104, 110] = djb2Claim [74, 111, 104, 110] :=
  ⟨by decide,
    (C10_ascii_standard_djb2 true [74, 111, 104, 110] (by decide)).2⟩

lemma xor_rotate (a b z : Nat) : a ^^^ (z ^^^ b) = b ^^^ (z ^^^ a) := by
  rw [← Nat.xor_assoc, Nat.xor_comm a z, Nat.xor_assoc,
    ← Nat.xor_assoc b z a, Nat.xor_comm b z, Nat.xor_assoc,
    Nat.xor_comm b a]

lemma xorFold_perm (s : List Nat) (r : Nat) {l₁ l₂ : List Nat}
    (p : l₁.Perm l₂) : xorFold s r l₁ = xorFold s r l₂ := by
  rw [xorFold_eq_foldl, xorFold_eq_foldl]
  refine p.foldl_eq' ?_ r
  intro x _ y _ z
  by_cases hx : 0 < charCount s x <;> by_cases hy : 0 < charCount s y <;>
    simp only [hx, hy, if_true, if_false, if_pos, if_neg, not_false_iff]
  · rw [Nat.xor_assoc, Nat.xor_assoc]
    rw [Nat.xor_comm (charCount s x * x % U32) (charCount s y * y % U32)]

/-- C6: XOR-folding the frequency terms in any permutation of the byte
values 0..255 yields the same final result as the ascending fold performed
by `process_name`, because XOR is commutative and associative. -/
theorem C6_fold_order_independent (charSigned : Bool) (s l : List Nat)
    (hp : l.Perm (List.range 256)) :
    xorFold s (hashOf charSigned s) l = process_name charSigned s :=
  xorFold_perm s (hashOf charSigned s) hp

/-- Witness for C6: folding in descending order (the reversed range) on the
input [74] agrees with `process_name`. -/
theorem C6_fold_order_independent_witness :
    ((List.range 256).reverse).Perm (List.range 256) ∧
      xorFold [74] (hashOf true [74]) ((List.range 256).reverse) =
        process_name true [74] :=
  ⟨(List.range 256).reverse_perm,
    C6_fold_order_independent true [74] ((List.range 256).reverse)
      (List.range 256).reverse_perm⟩

lemma sum_count_eq_length (s : List Nat) (h : ∀ b ∈ s, b < 256) :
    ∑ i ∈ Finset.range 256, s.count i = s.length := by
  induction s with
  | nil => simp
  | cons b t ih =>
      have hb : b ∈ Finset.range 256 := Finset.mem_range.mpr (h b (by simp))
      simp only [List.count_cons, List.length_cons, beq_iff_eq]
      rw [Finset.sum_add_distrib, ih fun x hx => h x (by simp [hx])]
      rw [Finset.sum_ite_eq (Finset.range 256) b fun _ => 1]
      simp [hb]

lemma map_mod_eq_self (s : List Nat) (h : ∀ b ∈ s, b < 256) :
    s.map (fun b => b % 256) = s := by
  conv_rhs => rw [← List.map_id s]
  exact List.map_congr_left fun a ha => Nat.mod_eq_of_lt (h a ha)

/-- C7: the computed length is the number of input bytes, the frequency
table gives the exact occurrence count of every byte value, and the counts
over 0..255 sum to the length. -/
theorem C7_length_and_counts (s : List Nat) (h : ∀ b ∈ s, b < 256) :
    nameLength s = s.length ∧ (∀ i, charCount s i = s.count i) ∧
      ∑ i ∈ Finset.range 256, charCount s i = nameLength s := by
  have hcount : ∀ i, charCount s i = s.count i := fun i => by
    simp only [charCount, map_mod_eq_self s h]
  refine ⟨rfl, hcount, ?_⟩
  calc ∑ i ∈ Finset.range 256, charCount s i
      = ∑ i ∈ Finset.range 256, s.count i :=
        Finset.sum_congr rfl fun i _ => hcount i
    _ = s.length := sum_count_eq_length s h

/-- Witness for C7 at the bytes of "Joo" (74, 111, 111). -/
theorem C7_length_and_counts_witness :
    (∀ b ∈ ([74, 111, 111] : List Nat), b < 256) ∧
      ∑ i ∈ Finset.range 256, charCount [74, 111, 111] i =
        nameLength [74, 111, 111] :=
  ⟨by decide, (C7_length_and_counts [74, 111, 111] (by decide)).2.2⟩

/-- C8: `main` exits with status 1 and prints the usage message exactly when
the number of positional arguments differs from one, and exits with status 0
when there is exactly one positional argument. -/
theorem C8_argc_check (charSigned : Bool) (prog : List Nat)
    (args : List (List Nat)) :
    (args.length ≠ 1 ↔
        cMain charSigned (prog :: args) = (1, true, none)) ∧
      (args.length = 1 ↔ (cMain charSigned (prog :: args)).1 = 0) := by
  match args with
  | [] => simp [cMain]
  | [a] => simp [cMain]
  | a :: b :: rest => simp [cMain]
